import Mathlib

set_option maxRecDepth 40000

/-!
Shallow embedding of `src/patch.py`, a one-shot migration script that rewrites
`background-image: url(_/uploads/….html)` placeholders in HTML files: it
downloads the real image (trying `.png`, `.jpg`, `.jpeg` against a fixed host)
and substitutes the style attribute value in place.

Strings are modelled as `List Char`.  The network is an oracle
`List Char → HttpResult` from request URL to outcome; the `except` branch of
the Python code corresponds to the `HttpResult.error` constructor.  Side
effects (attempted URLs, image-file writes, the HTML write-back) are returned
explicitly in result structures.

The fixed regular expression

  `class="[^"]*wsite-section-bg-image[^"]*"[^>]*?style="([^"]*?background-image:\s*url\((_/uploads/[^)]+?)\.html\)[^"]*?)"`

is embedded by a deterministic scanner implementing exactly Python's
leftmost, non-overlapping backtracking semantics for this pattern:
* `class="` then greedy `[^"]*…[^"]*"` necessarily consumes up to and
  including the first `"`, succeeding iff the marker class occurs in between;
* lazy `[^>]*?style="` tries each later `style="` occurrence in order, never
  crossing a `>`;
* lazy `[^"]*?background-image:` tries each later occurrence in order, never
  crossing a `"`;
* `\s*` followed by `url(` (no whitespace in `url(`) deterministically skips
  maximal whitespace; lazy `[^)]+?` followed by `\.html\)` deterministically
  ends at the first `)`; lazy `[^"]*?` followed by `"` deterministically ends
  at the first `"`.
-/

/-- Python `\s` whitespace (the ASCII range; exotic Unicode whitespace is not
modelled, no claim depends on it). -/
def isPySpace (c : Char) : Bool :=
  c = ' ' || c = '\t' || c = '\n' || c = '\x0b' || c = '\x0c' || c = '\r'

/-- Does `pat` occur as a contiguous substring of the second argument?
(Python's `in` / the implicit search of `str.replace`.) -/
def containsSub (pat : List Char) : List Char → Bool
  | [] => pat.isPrefixOf ([] : List Char)
  | c :: cs => pat.isPrefixOf (c :: cs) || containsSub pat cs

/-- Number of (possibly overlapping) occurrences of `pat`. -/
def countSub (pat : List Char) : List Char → Nat
  | [] => 0
  | c :: cs => (if pat.isPrefixOf (c :: cs) then 1 else 0) + countSub pat cs

/-- Python `s.replace(pat, repl, 1)`: replace the leftmost occurrence only.
(`pat` is nonempty at every call site of the source.) -/
def replaceOnce (pat repl : List Char) : List Char → List Char
  | [] => []
  | c :: cs =>
    if pat.isPrefixOf (c :: cs) then repl ++ (c :: cs).drop pat.length
    else c :: replaceOnce pat repl cs

/-- Worker for `replaceAll`; the fuel only serves structural termination and
is always at least the length of the list, which suffices since every step
consumes at least one character. -/
def replaceAllAux (pat repl : List Char) : Nat → List Char → List Char
  | 0, s => s
  | _ + 1, [] => []
  | fuel + 1, c :: cs =>
    if pat ≠ [] ∧ pat.isPrefixOf (c :: cs) then
      repl ++ replaceAllAux pat repl fuel (cs.drop (pat.length - 1))
    else
      c :: replaceAllAux pat repl fuel cs

/-- Python `s.replace(pat, repl)`: replace all non-overlapping occurrences,
left to right.  (`pat` is nonempty at every call site of the source.) -/
def replaceAll (pat repl s : List Char) : List Char :=
  replaceAllAux pat repl s.length s

/-- Outcome of one `requests.get(url, timeout=10)` call. -/
inductive HttpResult where
  | response (status : Nat) (body : List Char)
  | error
deriving DecidableEq

/-- Did the attempt yield HTTP 200? -/
def isOk : HttpResult → Bool
  | .response status _ => status == 200
  | .error => false

/-- Result of `download_image`: the URLs attempted (in order), the image
files written as (local path, bytes), and the returned value
(`None` ↦ `none`). -/
structure FetchResult where
  attempts : List (List Char)
  writes : List (List Char × List Char)
  ret : Option (List Char)
deriving DecidableEq

def hostStr : List Char := "https://tgv4plus.com/".toList

def localRoot : List Char := "_/".toList

def rootMarker : List Char := "_/".toList

def dotSlash : List Char := "./".toList

/-- `image_path[2:] if image_path.startswith('_/') else image_path` -/
def strip (p : List Char) : List Char :=
  if rootMarker.isPrefixOf p then p.drop 2 else p

def extsList : List (List Char) := [".png".toList, ".jpg".toList, ".jpeg".toList]

/-- The `for ext in ['.png', '.jpg', '.jpeg']` loop of `download_image`:
build the URL, issue the GET; on status 200 write the body to
`_/remote_path+ext` and return `./remote_path+ext`; on any other status or on
a transport error fall through to the next extension. -/
def tryExts (get : List Char → HttpResult) (remote : List Char) :
    List (List Char) → FetchResult
  | [] => ⟨[], [], none⟩
  | ext :: rest =>
    match get (hostStr ++ remote ++ ext) with
    | .response status body =>
      if status = 200 then
        ⟨[hostStr ++ remote ++ ext], [(localRoot ++ remote ++ ext, body)],
         some (dotSlash ++ remote ++ ext)⟩
      else
        ⟨(hostStr ++ remote ++ ext) :: (tryExts get remote rest).attempts,
         (tryExts get remote rest).writes, (tryExts get remote rest).ret⟩
    | .error =>
      ⟨(hostStr ++ remote ++ ext) :: (tryExts get remote rest).attempts,
       (tryExts get remote rest).writes, (tryExts get remote rest).ret⟩

/-- `download_image` of the source, parameterised by the network oracle. -/
def download_image (get : List Char → HttpResult) (image_path : List Char) :
    FetchResult :=
  tryExts get (strip image_path) extsList

def classLit : List Char := "class=\"".toList

def markerLit : List Char := "wsite-section-bg-image".toList

def styleAttr : List Char := "style=\"".toList

def bgLit : List Char := "background-image:".toList

def urlUploads : List Char := "url(_/uploads/".toList

def htmlExtLit : List Char := ".html".toList

/-- `[^)]` -/
def notRParen (c : Char) : Bool := c ≠ ')'

/-- `[^"]` -/
def notQuote (c : Char) : Bool := c ≠ '"'

/-- The tail of the pattern after `background-image:` was found:
`\s*url\((_/uploads/[^)]+?)\.html\)[^"]*?"`.  Returns
(consumed characters except the final quote, group 2, remainder after the
final quote). -/
def afterColon (s : List Char) : Option (List Char × List Char × List Char) :=
  let ws := s.takeWhile isPySpace
  let s1 := s.dropWhile isPySpace
  if urlUploads.isPrefixOf s1 then
    let s3 := s1.drop 14
    let inner := s3.takeWhile notRParen
    match s3.dropWhile notRParen with
    | ')' :: s5 =>
      if 6 ≤ inner.length ∧ inner.drop (inner.length - 5) = htmlExtLit then
        match s5.dropWhile notQuote with
        | '"' :: s6 =>
          some (ws ++ urlUploads ++ inner ++ ')' :: s5.takeWhile notQuote,
                "_/uploads/".toList ++ inner.take (inner.length - 5), s6)
        | _ => none
      else none
    | _ => none
  else none

/-- Lazy scan `[^"]*?background-image:` inside the style value; `acc` holds
the characters already skipped, reversed.  Returns (group 1, group 2,
remainder after the quote closing group 1). -/
def findBgImage (acc : List Char) : List Char → Option (List Char × List Char × List Char)
  | [] => none
  | c :: cs =>
    if bgLit.isPrefixOf (c :: cs) then
      match afterColon ((c :: cs).drop 17) with
      | some (mid, g2, rest) => some (acc.reverse ++ bgLit ++ mid, g2, rest)
      | none => if c = '"' then none else findBgImage (c :: acc) cs
    else if c = '"' then none else findBgImage (c :: acc) cs

/-- Lazy scan `[^>]*?style="` followed by the style-value pattern. -/
def findStyle : List Char → Option (List Char × List Char × List Char)
  | [] => none
  | c :: cs =>
    if styleAttr.isPrefixOf (c :: cs) then
      match findBgImage [] ((c :: cs).drop 7) with
      | some r => some r
      | none => if c = '>' then none else findStyle cs
    else if c = '>' then none else findStyle cs

/-- One attempt of the full pattern anchored at the head of `s`: the
`class="…"` part (marker class contained in the attribute value, which runs
to the first `"`), then `[^>]*?style="`, then the style-value pattern. -/
def matchAt (s : List Char) : Option (List Char × List Char × List Char) :=
  if classLit.isPrefixOf s then
    let v := (s.drop 7).takeWhile notQuote
    match (s.drop 7).dropWhile notQuote with
    | '"' :: s2 => if containsSub markerLit v then findStyle s2 else none
    | _ => none
  else none

/-- `re.findall` scan: try every position left to right, emit non-overlapping
matches, resume after each match.  The fuel only serves structural
termination; every step strictly shortens the list, so `length` fuel is
enough. -/
def findallAux : Nat → List Char → List (List Char × List Char)
  | 0, _ => []
  | _ + 1, [] => []
  | fuel + 1, c :: cs =>
    match matchAt (c :: cs) with
    | some (g1, g2, rest) => (g1, g2) :: findallAux fuel rest
    | none => findallAux fuel cs

/-- `re.findall(pattern, content)`: list of (group 1, group 2) pairs. -/
def findall (content : List Char) : List (List Char × List Char) :=
  findallAux content.length content

/-- The exact token substituted in the document: `style="<value>"`. -/
def styleTok (v : List Char) : List Char :=
  styleAttr ++ v ++ "\"".toList

/-- The per-match loop of `process_html_file`: call `download_image` for each
match, and for the successful ones record
`(full_style, full_style.replace(old_url, new_url))`.  Returns (all attempted
URLs, all image writes, recorded replacements), each in source order. -/
def collect (get : List Char → HttpResult) :
    List (List Char × List Char) →
      List (List Char) × List (List Char × List Char) × List (List Char × List Char)
  | [] => ([], [], [])
  | m :: rest =>
    match (download_image get m.2).ret with
    | some new_path =>
      ((download_image get m.2).attempts ++ (collect get rest).1,
       (download_image get m.2).writes ++ (collect get rest).2.1,
       (m.1, replaceAll ("url(".toList ++ m.2 ++ ".html)".toList)
                        ("url(".toList ++ new_path ++ ")".toList) m.1)
         :: (collect get rest).2.2)
    | none =>
      ((download_image get m.2).attempts ++ (collect get rest).1,
       (download_image get m.2).writes ++ (collect get rest).2.1,
       (collect get rest).2.2)

/-- The replacement loop: `content.replace(f'style="{old}"', f'style="{new}"', 1)`
for each recorded pair, in order. -/
def applyReplacements : List (List Char × List Char) → List Char → List Char
  | [], content => content
  | p :: rest, content =>
    applyReplacements rest (replaceOnce (styleTok p.1) (styleTok p.2) content)

/-- Result of `process_html_file`: attempted download URLs, image writes, the
content written back to the file (`none` when the file is not touched), and
the boolean return value. -/
structure ProcessResult where
  downloads : List (List Char)
  imageWrites : List (List Char × List Char)
  fileWrite : Option (List Char)
  ret : Bool
deriving DecidableEq

/-- `process_html_file` of the source: find all matches; if none, return
False without touching anything; otherwise download per match, apply the
recorded replacements to a working copy and write it back iff at least one
replacement was recorded. -/
def process_html_file (get : List Char → HttpResult) (content : List Char) :
    ProcessResult :=
  if findall content = [] then ⟨[], [], none, false⟩
  else
    if (collect get (findall content)).2.2 = [] then
      ⟨(collect get (findall content)).1, (collect get (findall content)).2.1,
       none, false⟩
    else
      ⟨(collect get (findall content)).1, (collect get (findall content)).2.1,
       some (applyReplacements ((collect get (findall content)).2.2) content),
       true⟩

/-- `c ─→ c'` by a finite chain of whole-token substitutions, each replacing
one occurrence of `style="<old>"` by `style="<new>"` for a recorded
replacement pair `(old, new)`; every byte outside the replaced token is
preserved by each step. -/
inductive FrameRel (reps : List (List Char × List Char)) : List Char → List Char → Prop where
  | refl (c : List Char) : FrameRel reps c c
  | step (a b c2 : List Char) (p : List Char × List Char) (hp : p ∈ reps)
      (h : FrameRel reps (a ++ styleTok p.2 ++ b) c2) :
      FrameRel reps (a ++ styleTok p.1 ++ b) c2

/-! Concrete documents and oracles used by witnesses and counterexamples. -/

def demoDoc : List Char :=
  "<div class=\"wsite-section-bg-image\" style=\"background-image: url(_/uploads/i.html)\">x</div>".toList

def demoStyle : List Char := "background-image: url(_/uploads/i.html)".toList

def demoPath : List Char := "_/uploads/i".toList

def demoTag : List Char :=
  "class=\"wsite-section-bg-image\" style=\"background-image: url(_/uploads/i.html)\">x".toList

/-- Oracle answering 200 only for the `.png` URL of the demo image. -/
def okPngGet (u : List Char) : HttpResult :=
  if u = "https://tgv4plus.com/uploads/i.png".toList then .response 200 "IMG".toList
  else .response 404 []

/-- Same 200/not-200 pattern as `okPngGet`, but failures are transport errors
and the body differs. -/
def okPngGetErr (u : List Char) : HttpResult :=
  if u = "https://tgv4plus.com/uploads/i.png".toList then .response 200 "JJJ".toList
  else .error

/-- Oracle answering 200 only for the `.jpg` URL of the demo image. -/
def okJpgGet (u : List Char) : HttpResult :=
  if u = "https://tgv4plus.com/uploads/i.jpg".toList then .response 200 "IMG".toList
  else .response 404 []

/-- Oracle that always fails with a 404 response. -/
def notFoundGet (_ : List Char) : HttpResult := .response 404 []

/-- Oracle that always fails with a transport error. -/
def errGet (_ : List Char) : HttpResult := .error

/-- The demo document after one successful migration run. -/
def migratedDemo : List Char :=
  (process_html_file okPngGet demoDoc).fileWrite.getD []

/-- Document with two matching elements carrying byte-identical style
values. -/
def docDup : List Char :=
  ("<div class=\"wsite-section-bg-image\" style=\"background-image: url(_/uploads/i.html)\">a</div>" ++
   "<div class=\"wsite-section-bg-image\" style=\"background-image: url(_/uploads/i.html)\">b</div>").toList

/-- Document whose first element matches while the second carries the same
style value verbatim but no marker class (so it is not captured). -/
def docDupOne : List Char :=
  ("<div class=\"wsite-section-bg-image\" style=\"background-image: url(_/uploads/i.html)\">a</div>" ++
   "<div style=\"background-image: url(_/uploads/i.html)\">b</div>").toList

def docDupOneA : List Char := "<div class=\"wsite-section-bg-image\" ".toList

def docDupOneM : List Char := ">a</div><div ".toList

def docDupOneB : List Char := ">b</div>".toList

/-- Document with no matching element. -/
def noMatchDoc : List Char := "<p>plain paragraph</p>".toList

/-! Basic facts about prefixes, `containsSub` and the two replacement
functions. -/

theorem isPrefixOf_append_drop {a s : List Char} (h : a.isPrefixOf s = true) :
    s = a ++ s.drop a.length := by
  obtain ⟨t, ht⟩ := List.isPrefixOf_iff_prefix.mp h
  subst ht
  rw [List.drop_left]

theorem isPrefixOf_nil {a : List Char} (h : a.isPrefixOf ([] : List Char) = true) :
    a = [] := by
  cases a with
  | nil => rfl
  | cons x xs => simp [List.isPrefixOf] at h

theorem self_append_isPrefixOf (a b : List Char) : a.isPrefixOf (a ++ b) = true :=
  List.isPrefixOf_iff_prefix.mpr ⟨b, rfl⟩

theorem containsSub_of_decomp (pat a b : List Char) :
    containsSub pat (a ++ pat ++ b) = true := by
  induction a with
  | nil =>
    simp only [List.nil_append]
    cases hpb : pat ++ b with
    | nil =>
      rcases List.append_eq_nil.mp hpb with ⟨h1, h2⟩
      subst h1
      subst h2
      decide
    | cons c cs =>
      simp only [containsSub, Bool.or_eq_true]
      left
      rw [← hpb]
      exact self_append_isPrefixOf pat b
  | cons x xs ih =>
    simp only [List.cons_append, containsSub, Bool.or_eq_true]
    right
    simpa using ih

theorem replaceOnce_frame (pat repl : List Char) :
    ∀ s, replaceOnce pat repl s = s ∨
      ∃ a b, s = a ++ pat ++ b ∧ replaceOnce pat repl s = a ++ repl ++ b := by
  intro s
  induction s with
  | nil => exact Or.inl rfl
  | cons c cs ih =>
    by_cases h : pat.isPrefixOf (c :: cs) = true
    · right
      refine ⟨[], (c :: cs).drop pat.length, ?_, ?_⟩
      · simpa using isPrefixOf_append_drop h
      · simp [replaceOnce, h]
    · rcases ih with h1 | ⟨a, b, hs, hr⟩
      · left
        simp [replaceOnce, h, h1]
      · right
        refine ⟨c :: a, b, by simp [hs], ?_⟩
        simp [replaceOnce, h, hr]

theorem replaceOnce_of_contains (pat repl : List Char) (hne : pat ≠ []) :
    ∀ s, containsSub pat s = true →
      ∃ a b, s = a ++ pat ++ b ∧ replaceOnce pat repl s = a ++ repl ++ b := by
  intro s
  induction s with
  | nil =>
    intro h
    simp only [containsSub] at h
    exact absurd (isPrefixOf_nil h) hne
  | cons c cs ih =>
    intro h
    by_cases hp : pat.isPrefixOf (c :: cs) = true
    · refine ⟨[], (c :: cs).drop pat.length, ?_, ?_⟩
      · simpa using isPrefixOf_append_drop hp
      · simp [replaceOnce, hp]
    · have hcs : containsSub pat cs = true := by
        simp only [containsSub, Bool.or_eq_true] at h
        rcases h with h | h
        · exact absurd h hp
        · exact h
      rcases ih hcs with ⟨a, b, hs, hr⟩
      exact ⟨c :: a, b, by simp [hs], by simp [replaceOnce, hp, hr]⟩

theorem replaceOnce_cons_of_prefix (pat repl : List Char) (x : Char) (s : List Char)
    (h : pat.isPrefixOf (x :: s) = true) :
    replaceOnce pat repl (x :: s) = repl ++ (x :: s).drop pat.length := by
  have hu : replaceOnce pat repl (x :: s)
      = if pat.isPrefixOf (x :: s) = true then repl ++ (x :: s).drop pat.length
        else x :: replaceOnce pat repl s := rfl
  rw [hu, if_pos h]

theorem replaceOnce_cons_of_not_prefix (pat repl : List Char) (x : Char) (s : List Char)
    (h : pat.isPrefixOf (x :: s) = false) :
    replaceOnce pat repl (x :: s) = x :: replaceOnce pat repl s := by
  have hu : replaceOnce pat repl (x :: s)
      = if pat.isPrefixOf (x :: s) = true then repl ++ (x :: s).drop pat.length
        else x :: replaceOnce pat repl s := rfl
  rw [hu, if_neg]
  simp [h]

theorem replaceOnce_self_append (pat repl c : List Char) (hne : pat ≠ []) :
    replaceOnce pat repl (pat ++ c) = repl ++ c := by
  obtain ⟨p, ps, rfl⟩ := List.exists_cons_of_ne_nil hne
  have hpre : (p :: ps).isPrefixOf (p :: (ps ++ c)) = true :=
    self_append_isPrefixOf (p :: ps) c
  have hstep : (p :: ps) ++ c = p :: (ps ++ c) := by simp
  rw [hstep, replaceOnce_cons_of_prefix _ _ _ _ hpre]
  congr 1
  rw [← hstep, List.drop_left]

theorem replaceOnce_leftmost (pat repl : List Char) (hne : pat ≠ []) :
    ∀ a c, (∀ i, i < a.length → pat.isPrefixOf ((a ++ pat ++ c).drop i) = false) →
      replaceOnce pat repl (a ++ pat ++ c) = a ++ repl ++ c := by
  intro a
  induction a with
  | nil =>
    intro c _
    simpa using replaceOnce_self_append pat repl c hne
  | cons x xs ih =>
    intro c hfirst
    have h0 : pat.isPrefixOf (x :: (xs ++ pat ++ c)) = false := by
      have := hfirst 0 (by simp)
      simpa using this
    have h1 : ∀ i, i < xs.length → pat.isPrefixOf ((xs ++ pat ++ c).drop i) = false := by
      intro i hi
      have := hfirst (i + 1) (by simp only [List.length_cons]; omega)
      simpa [List.cons_append] using this
    have hstep : (x :: xs) ++ pat ++ c = x :: (xs ++ pat ++ c) := by simp
    rw [hstep, replaceOnce_cons_of_not_prefix pat repl x _ h0, ih c h1]
    simp

theorem replaceAllAux_contains (pat repl : List Char) (hne : pat ≠ []) :
    ∀ fuel s, s.length ≤ fuel → containsSub pat s = true →
      ∃ u w, replaceAllAux pat repl fuel s = u ++ repl ++ w := by
  intro fuel
  induction fuel with
  | zero =>
    intro s hlen h
    have hs : s = [] := List.length_eq_zero.mp (Nat.le_zero.mp hlen)
    subst hs
    simp only [containsSub] at h
    exact absurd (isPrefixOf_nil h) hne
  | succ n ih =>
    intro s hlen h
    cases s with
    | nil =>
      simp only [containsSub] at h
      exact absurd (isPrefixOf_nil h) hne
    | cons c cs =>
      by_cases hp : pat.isPrefixOf (c :: cs) = true
      · refine ⟨[], replaceAllAux pat repl n (cs.drop (pat.length - 1)), ?_⟩
        simp [replaceAllAux, hne, hp]
      · have hcs : containsSub pat cs = true := by
          simp only [containsSub, Bool.or_eq_true] at h
          rcases h with h | h
          · exact absurd h hp
          · exact h
        obtain ⟨u, w, hw⟩ := ih cs (by simp only [List.length_cons] at hlen; omega) hcs
        refine ⟨c :: u, w, ?_⟩
        simp [replaceAllAux, hp, hw]

theorem replaceAll_contains (pat repl s : List Char) (hne : pat ≠ [])
    (h : containsSub pat s = true) :
    ∃ u w, replaceAll pat repl s = u ++ repl ++ w :=
  replaceAllAux_contains pat repl hne s.length s (le_refl _) h

theorem styleTok_ne_nil (v : List Char) : styleTok v ≠ [] := by
  intro h
  have := congrArg List.length h
  simp [styleTok] at this

/-! Facts about `tryExts` / `download_image`. -/

theorem isOk_true {r : HttpResult} : isOk r = true ↔ ∃ b, r = .response 200 b := by
  cases r with
  | response status body =>
    simp only [isOk, beq_iff_eq, HttpResult.response.injEq]
    constructor
    · intro h
      exact ⟨body, h, rfl⟩
    · intro ⟨b, h1, h2⟩
      exact h1
  | error => simp [isOk]

theorem tryExts_cons_ok (get : List Char → HttpResult) (remote ext : List Char)
    (rest : List (List Char)) (body : List Char)
    (h : get (hostStr ++ remote ++ ext) = .response 200 body) :
    tryExts get remote (ext :: rest) =
      ⟨[hostStr ++ remote ++ ext], [(localRoot ++ remote ++ ext, body)],
       some (dotSlash ++ remote ++ ext)⟩ := by
  rw [List.append_assoc] at h
  simp [tryExts, h]

theorem tryExts_cons_fail (get : List Char → HttpResult) (remote ext : List Char)
    (rest : List (List Char))
    (h : isOk (get (hostStr ++ remote ++ ext)) = false) :
    tryExts get remote (ext :: rest) =
      ⟨(hostStr ++ remote ++ ext) :: (tryExts get remote rest).attempts,
       (tryExts get remote rest).writes, (tryExts get remote rest).ret⟩ := by
  cases hg : get (hostStr ++ remote ++ ext) with
  | response status body =>
    rw [hg] at h
    simp only [isOk, beq_eq_false_iff_ne, ne_eq] at h
    rw [List.append_assoc] at hg
    simp [tryExts, hg, h]
  | error =>
    rw [List.append_assoc] at hg
    simp [tryExts, hg]

theorem tryExts_all_fail (get : List Char → HttpResult) (remote : List Char) :
    ∀ l, (∀ e ∈ l, isOk (get (hostStr ++ remote ++ e)) = false) →
      (tryExts get remote l).ret = none := by
  intro l
  induction l with
  | nil => intro _; rfl
  | cons e rest ih =>
    intro h
    rw [tryExts_cons_fail get remote e rest (h e (by simp))]
    exact ih (fun x hx => h x (by simp [hx]))

theorem tryExts_ret_some (get : List Char → HttpResult) (remote : List Char) :
    ∀ l ref, (tryExts get remote l).ret = some ref →
      ∃ e body, e ∈ l ∧ get (hostStr ++ remote ++ e) = .response 200 body ∧
        ref = dotSlash ++ remote ++ e ∧
        (tryExts get remote l).writes = [(localRoot ++ remote ++ e, body)] := by
  intro l
  induction l with
  | nil => intro ref h; simp [tryExts] at h
  | cons e rest ih =>
    intro ref h
    by_cases hok : isOk (get (hostStr ++ remote ++ e)) = true
    · obtain ⟨b, hb⟩ := isOk_true.mp hok
      rw [tryExts_cons_ok get remote e rest b hb] at h ⊢
      refine ⟨e, b, by simp, hb, ?_, rfl⟩
      simpa using h.symm
    · have hfail : isOk (get (hostStr ++ remote ++ e)) = false := by
        simpa using hok
      rw [tryExts_cons_fail get remote e rest hfail] at h ⊢
      obtain ⟨e', b', he', hg', hr', hw'⟩ := ih ref h
      exact ⟨e', b', by simp [he'], hg', hr', hw'⟩

theorem tryExts_congr (get1 get2 : List Char → HttpResult)
    (hok : ∀ u, isOk (get1 u) = isOk (get2 u)) (remote : List Char) :
    ∀ l, (tryExts get1 remote l).ret = (tryExts get2 remote l).ret ∧
      (tryExts get1 remote l).attempts = (tryExts get2 remote l).attempts := by
  intro l
  induction l with
  | nil => exact ⟨rfl, rfl⟩
  | cons e rest ih =>
    by_cases hcase : isOk (get1 (hostStr ++ remote ++ e)) = true
    · have h2 : isOk (get2 (hostStr ++ remote ++ e)) = true := by
        rw [← hok]
        exact hcase
      obtain ⟨b1, hb1⟩ := isOk_true.mp hcase
      obtain ⟨b2, hb2⟩ := isOk_true.mp h2
      rw [tryExts_cons_ok get1 remote e rest b1 hb1,
          tryExts_cons_ok get2 remote e rest b2 hb2]
      exact ⟨rfl, rfl⟩
    · have h1 : isOk (get1 (hostStr ++ remote ++ e)) = false := by
        simpa using hcase
      have h2 : isOk (get2 (hostStr ++ remote ++ e)) = false := by
        rw [← hok]
        exact h1
      rw [tryExts_cons_fail get1 remote e rest h1,
          tryExts_cons_fail get2 remote e rest h2]
      exact ⟨ih.1, by rw [ih.2]⟩

/-! Decomposition lemmas for the pattern scanner. -/

theorem afterColon_spec (s mid g2 rest : List Char)
    (h : afterColon s = some (mid, g2, rest)) :
    s = mid ++ '"' :: rest ∧
    ∃ x y, mid = x ++ ("url(".toList ++ g2 ++ htmlExtLit ++ [')']) ++ y := by
  simp only [afterColon] at h
  split at h
  · rename_i hpre
    split at h
    · rename_i s5 heq1
      split at h
      · rename_i hcond
        split at h
        · rename_i s6 heq2
          simp only [Option.some.injEq, Prod.mk.injEq] at h
          obtain ⟨hmid, hg2, hrest⟩ := h
          subst hmid
          subst hg2
          subst hrest
          have hdw : s.dropWhile isPySpace
              = urlUploads ++ (s.dropWhile isPySpace).drop 14 := by
            have := isPrefixOf_append_drop hpre
            simpa using this
          have hs5 : s5 = s5.takeWhile notQuote ++ '"' :: s6 := by
            conv_lhs => rw [← List.takeWhile_append_dropWhile notQuote s5]
            rw [heq2]
          have hinner : ((s.dropWhile isPySpace).drop 14).takeWhile notRParen
              = (((s.dropWhile isPySpace).drop 14).takeWhile notRParen).take
                  ((((s.dropWhile isPySpace).drop 14).takeWhile notRParen).length - 5)
                ++ htmlExtLit := by
            conv_lhs =>
              rw [← List.take_append_drop
                ((((s.dropWhile isPySpace).drop 14).takeWhile notRParen).length - 5)
                (((s.dropWhile isPySpace).drop 14).takeWhile notRParen)]
            rw [hcond.2]
          have hurl : urlUploads = "url(".toList ++ "_/uploads/".toList := by decide
          constructor
          · conv_lhs =>
              rw [← List.takeWhile_append_dropWhile isPySpace s, hdw,
                ← List.takeWhile_append_dropWhile notRParen
                  ((s.dropWhile isPySpace).drop 14),
                heq1, hs5]
            simp [List.append_assoc]
          · refine ⟨s.takeWhile isPySpace, s5.takeWhile notQuote, ?_⟩
            conv_lhs => rw [hinner, hurl]
            simp [List.append_assoc]
        · simp at h
      · simp at h
    · simp at h
  · simp at h

theorem findBgImage_spec (s : List Char) :
    ∀ acc g1 g2 rest, findBgImage acc s = some (g1, g2, rest) →
      ∃ t, g1 = acc.reverse ++ t ∧ s = t ++ '"' :: rest ∧
        ∃ x y, t = x ++ ("url(".toList ++ g2 ++ htmlExtLit ++ [')']) ++ y := by
  induction s with
  | nil =>
    intro acc g1 g2 rest h
    simp [findBgImage] at h
  | cons c cs ih =>
    intro acc g1 g2 rest h
    simp only [findBgImage] at h
    split at h
    · rename_i hbg
      split at h
      · rename_i val mid g2x restx heqA
        simp only [Option.some.injEq, Prod.mk.injEq] at h
        obtain ⟨hg1, hg2, hrest⟩ := h
        subst hg1
        subst hg2
        subst hrest
        obtain ⟨hsplit, x, y, hmid⟩ := afterColon_spec _ _ _ _ heqA
        have hcd : c :: cs = bgLit ++ (c :: cs).drop 17 := by
          have h17 : bgLit.length = 17 := by decide
          have := isPrefixOf_append_drop hbg
          rw [h17] at this
          exact this
        refine ⟨bgLit ++ mid, List.append_assoc _ _ _, ?_, bgLit ++ x, y, ?_⟩
        · rw [hcd, hsplit]
          simp [List.append_assoc]
        · rw [hmid]
          simp [List.append_assoc]
      · rename_i heqA
        split at h
        · simp at h
        · rename_i hcq
          obtain ⟨t, hg1, hs, x, y, ht⟩ := ih (c :: acc) g1 g2 rest h
          refine ⟨c :: t, ?_, by simp [hs], c :: x, y, by simp [ht]⟩
          rw [hg1]
          simp
    · rename_i hbg
      split at h
      · simp at h
      · rename_i hcq
        obtain ⟨t, hg1, hs, x, y, ht⟩ := ih (c :: acc) g1 g2 rest h
        refine ⟨c :: t, ?_, by simp [hs], c :: x, y, by simp [ht]⟩
        rw [hg1]
        simp

theorem findStyle_spec (s : List Char) :
    ∀ g1 g2 rest, findStyle s = some (g1, g2, rest) →
      ∃ m, s = m ++ styleAttr ++ g1 ++ '"' :: rest ∧ (∀ c ∈ m, ¬ c = '>') ∧
        ∃ x y, g1 = x ++ ("url(".toList ++ g2 ++ htmlExtLit ++ [')']) ++ y := by
  induction s with
  | nil =>
    intro g1 g2 rest h
    simp [findStyle] at h
  | cons c cs ih =>
    intro g1 g2 rest h
    simp only [findStyle] at h
    split at h
    · rename_i hst
      split at h
      · rename_i val heqB
        rw [h] at heqB
        obtain ⟨t, hg1, hsplit, x, y, ht⟩ := findBgImage_spec _ [] g1 g2 rest heqB
        simp only [List.reverse_nil, List.nil_append] at hg1
        subst hg1
        have hcd : c :: cs = styleAttr ++ (c :: cs).drop 7 := by
          have h7 : styleAttr.length = 7 := by decide
          have := isPrefixOf_append_drop hst
          rw [h7] at this
          exact this
        refine ⟨[], ?_, by simp, x, y, ht⟩
        rw [hcd, hsplit]
        simp [List.append_assoc]
      · rename_i heqB
        split at h
        · simp at h
        · rename_i hgt
          obtain ⟨m, hs, hm, hx⟩ := ih g1 g2 rest h
          refine ⟨c :: m, by simp [hs, List.append_assoc], ?_, hx⟩
          intro z hz
          rcases List.mem_cons.mp hz with rfl | hz2
          · exact hgt
          · exact hm z hz2
    · rename_i hst
      split at h
      · simp at h
      · rename_i hgt
        obtain ⟨m, hs, hm, hx⟩ := ih g1 g2 rest h
        refine ⟨c :: m, by simp [hs, List.append_assoc], ?_, hx⟩
        intro z hz
        rcases List.mem_cons.mp hz with rfl | hz2
        · exact hgt
        · exact hm z hz2

theorem matchAt_spec (s g1 g2 rest : List Char)
    (h : matchAt s = some (g1, g2, rest)) :
    ∃ v m, s = classLit ++ v ++ '"' :: (m ++ styleAttr ++ g1 ++ '"' :: rest) ∧
      containsSub markerLit v = true ∧ (∀ c ∈ v, ¬ c = '"') ∧ (∀ c ∈ m, ¬ c = '>') ∧
      ∃ x y, g1 = x ++ ("url(".toList ++ g2 ++ htmlExtLit ++ [')']) ++ y := by
  simp only [matchAt] at h
  split at h
  · rename_i hcl
    split at h
    · rename_i s2 heqC
      split at h
      · rename_i hmk
        obtain ⟨m, hs2, hm, hx⟩ := findStyle_spec s2 g1 g2 rest h
        have hcd : s = classLit ++ s.drop 7 := by
          have h7 : classLit.length = 7 := by decide
          have := isPrefixOf_append_drop hcl
          rw [h7] at this
          exact this
        have hdq : s.drop 7 = (s.drop 7).takeWhile notQuote ++ '"' :: s2 := by
          conv_lhs => rw [← List.takeWhile_append_dropWhile notQuote (s.drop 7)]
          rw [heqC]
        refine ⟨(s.drop 7).takeWhile notQuote, m, ?_, hmk, ?_, hm, hx⟩
        · conv_lhs => rw [hcd, hdq, hs2]
          simp [List.append_assoc]
        · intro z hz
          have := List.mem_takeWhile_imp hz
          simpa [notQuote] using this
      · simp at h
    · simp at h
  · simp at h

theorem findallAux_mem :
    ∀ fuel s g1 g2, (g1, g2) ∈ findallAux fuel s →
      (∃ a b, s = a ++ styleTok g1 ++ b) ∧
      ∃ x y, g1 = x ++ ("url(".toList ++ g2 ++ htmlExtLit ++ [')']) ++ y := by
  intro fuel
  induction fuel with
  | zero =>
    intro s g1 g2 h
    simp [findallAux] at h
  | succ n ih =>
    intro s g1 g2 h
    cases s with
    | nil => simp [findallAux] at h
    | cons c cs =>
      simp only [findallAux] at h
      split at h
      · rename_i val g1x g2x restx heqM
        rcases List.mem_cons.mp h with hhead | htail
        · injection hhead with hg1 hg2
          subst hg1
          subst hg2
          obtain ⟨v, m, hs, hmk, hv, hm, hx⟩ := matchAt_spec (c :: cs) g1 g2 restx heqM
          refine ⟨⟨classLit ++ v ++ ['"'] ++ m, restx, ?_⟩, hx⟩
          rw [hs]
          simp [styleTok, List.append_assoc]
        · obtain ⟨⟨a, b, hab⟩, hx⟩ := ih restx g1 g2 htail
          obtain ⟨v, m, hs, _⟩ := matchAt_spec (c :: cs) g1x g2x restx heqM
          refine ⟨⟨classLit ++ v ++ ['"'] ++ m ++ styleAttr ++ g1x ++ ['"'] ++ a, b, ?_⟩, hx⟩
          rw [hs, hab]
          simp [List.append_assoc]
      · obtain ⟨⟨a, b, hab⟩, hx⟩ := ih cs g1 g2 h
        exact ⟨⟨c :: a, b, by simp [hab]⟩, hx⟩

theorem findall_mem (content g1 g2 : List Char)
    (h : (g1, g2) ∈ findall content) :
    (∃ a b, content = a ++ styleTok g1 ++ b) ∧
    ∃ x y, g1 = x ++ ("url(".toList ++ g2 ++ htmlExtLit ++ [')']) ++ y :=
  findallAux_mem content.length content g1 g2 h

/-! Facts about `collect`, `applyReplacements` and `process_html_file`. -/

theorem collect_fst_sub (get : List Char → HttpResult) :
    ∀ ms p, p ∈ (collect get ms).2.2 → p.1 ∈ ms.map Prod.fst := by
  intro ms
  induction ms with
  | nil =>
    intro p h
    simp [collect] at h
  | cons m rest ih =>
    intro p h
    simp only [collect] at h
    split at h
    · rename_i np hnp
      simp only [List.mem_cons] at h
      rcases h with rfl | h2
      · simp
      · simp only [List.map_cons, List.mem_cons]
        exact Or.inr (by simpa using ih p h2)
    · rename_i hnp
      simp only [List.map_cons, List.mem_cons]
      exact Or.inr (by simpa using ih p h)

theorem process_eq_nil (get : List Char → HttpResult) (content : List Char)
    (h : findall content = []) :
    process_html_file get content = ⟨[], [], none, false⟩ := by
  simp [process_html_file, h]

theorem process_fileWrite_eq (get : List Char → HttpResult) (content c' : List Char)
    (h : (process_html_file get content).fileWrite = some c') :
    c' = applyReplacements ((collect get (findall content)).2.2) content := by
  by_cases h0 : findall content = []
  · rw [process_eq_nil get content h0] at h
    simp at h
  · by_cases h1 : (collect get (findall content)).2.2 = []
    · simp [process_html_file, h0, h1] at h
    · simp [process_html_file, h0, h1] at h
      exact h.symm

theorem FrameRel_apply (reps : List (List Char × List Char)) :
    ∀ l, (∀ p ∈ l, p ∈ reps) → ∀ c, FrameRel reps c (applyReplacements l c) := by
  intro l
  induction l with
  | nil =>
    intro _ c
    exact FrameRel.refl c
  | cons p rest ih =>
    intro hsub c
    have hstep : applyReplacements (p :: rest) c
        = applyReplacements rest (replaceOnce (styleTok p.1) (styleTok p.2) c) := rfl
    rw [hstep]
    rcases replaceOnce_frame (styleTok p.1) (styleTok p.2) c with heq | ⟨a, b, hc, hc2⟩
    · rw [heq]
      exact ih (fun q hq => hsub q (List.mem_cons_of_mem p hq)) c
    · rw [hc2, hc]
      exact FrameRel.step a b _ p (hsub p (List.mem_cons_self p rest))
        (ih (fun q hq => hsub q (List.mem_cons_of_mem p hq)) (a ++ styleTok p.2 ++ b))

theorem collect_single (get : List Char → HttpResult) (st p np : List Char)
    (hd : (download_image get p).ret = some np) :
    collect get [(st, p)] =
      ((download_image get p).attempts, (download_image get p).writes,
       [(st, replaceAll ("url(".toList ++ p ++ ".html)".toList)
                        ("url(".toList ++ np ++ ")".toList) st)]) := by
  simp [collect, hd]

theorem collect_single_none (get : List Char → HttpResult) (st p : List Char)
    (hd : (download_image get p).ret = none) :
    collect get [(st, p)] =
      ((download_image get p).attempts, (download_image get p).writes, []) := by
  simp [collect, hd]

theorem process_single_ok (get : List Char → HttpResult) (content st p np : List Char)
    (hm : findall content = [(st, p)])
    (hd : (download_image get p).ret = some np) :
    process_html_file get content =
      ⟨(download_image get p).attempts, (download_image get p).writes,
       some (replaceOnce (styleTok st)
         (styleTok (replaceAll ("url(".toList ++ p ++ ".html)".toList)
                               ("url(".toList ++ np ++ ")".toList) st)) content),
       true⟩ := by
  have hc := collect_single get st p np hd
  simp [process_html_file, hm, hc, applyReplacements]

theorem process_single_none (get : List Char → HttpResult) (content st p : List Char)
    (hm : findall content = [(st, p)])
    (hd : (download_image get p).ret = none) :
    process_html_file get content =
      ⟨(download_image get p).attempts, (download_image get p).writes, none, false⟩ := by
  have hc := collect_single_none get st p hd
  simp [process_html_file, hm, hc]

/-! Claim theorems. -/

/-- C1: for every document processed by `process_html_file`, the content
written back differs from the original only by a chain of whole-value
replacements `style="<old>"` → `style="<new>"` of recorded pairs, and every
replaced old value is the full style value of some pattern match; every byte
outside the replaced tokens is preserved. -/
theorem claim1_frame_only_style_replacements (get : List Char → HttpResult)
    (content c' : List Char)
    (h : (process_html_file get content).fileWrite = some c') :
    FrameRel ((collect get (findall content)).2.2) content c' ∧
    ∀ p ∈ (collect get (findall content)).2.2,
      p.1 ∈ (findall content).map Prod.fst := by
  constructor
  · rw [process_fileWrite_eq get content c' h]
    exact FrameRel_apply _ _ (fun q hq => hq) content
  · exact fun p hp => collect_fst_sub get (findall content) p hp

theorem claim1_witness :
    FrameRel ((collect okPngGet (findall demoDoc)).2.2) demoDoc migratedDemo ∧
    ∀ p ∈ (collect okPngGet (findall demoDoc)).2.2,
      p.1 ∈ (findall demoDoc).map Prod.fst :=
  claim1_frame_only_style_replacements okPngGet demoDoc migratedDemo (by decide)

/-- C3: `download_image` tries `.png` before `.jpg` before `.jpeg`; when the
`.png` attempt is not a 200 and the `.jpg` attempt returns 200, it returns
`./<stripped>.jpg`, the attempted URLs are exactly the `.png` and `.jpg`
ones, and the `.jpeg` URL is never attempted. -/
theorem claim3_extension_order (get : List Char → HttpResult) (p body : List Char)
    (h1 : isOk (get (hostStr ++ strip p ++ ".png".toList)) = false)
    (h2 : get (hostStr ++ strip p ++ ".jpg".toList) = .response 200 body) :
    (download_image get p).ret = some (dotSlash ++ strip p ++ ".jpg".toList) ∧
    (download_image get p).attempts =
      [hostStr ++ strip p ++ ".png".toList, hostStr ++ strip p ++ ".jpg".toList] ∧
    hostStr ++ strip p ++ ".jpeg".toList ∉ (download_image get p).attempts := by
  have e1 := tryExts_cons_fail get (strip p) (".png".toList)
      [".jpg".toList, ".jpeg".toList] h1
  have e2 := tryExts_cons_ok get (strip p) (".jpg".toList) [".jpeg".toList] body h2
  have hdl : download_image get p
      = tryExts get (strip p) (".png".toList :: [".jpg".toList, ".jpeg".toList]) := rfl
  have hret : (download_image get p).ret
      = some (dotSlash ++ strip p ++ ".jpg".toList) := by
    rw [hdl, e1, e2]
  have hatt : (download_image get p).attempts
      = [hostStr ++ strip p ++ ".png".toList, hostStr ++ strip p ++ ".jpg".toList] := by
    rw [hdl, e1, e2]
  refine ⟨hret, hatt, ?_⟩
  rw [hatt]
  intro hmem
  rcases List.mem_cons.mp hmem with h | h
  · exact absurd (List.append_cancel_left h) (by decide)
  · rcases List.mem_cons.mp h with h2 | h2
    · exact absurd (List.append_cancel_left h2) (by decide)
    · exact absurd h2 (List.not_mem_nil _)

theorem claim3_witness :
    (download_image okJpgGet demoPath).ret = some (dotSlash ++ strip demoPath ++ ".jpg".toList) ∧
    (download_image okJpgGet demoPath).attempts =
      [hostStr ++ strip demoPath ++ ".png".toList, hostStr ++ strip demoPath ++ ".jpg".toList] ∧
    hostStr ++ strip demoPath ++ ".jpeg".toList ∉ (download_image okJpgGet demoPath).attempts :=
  claim3_extension_order okJpgGet demoPath ("IMG".toList) (by decide) (by decide)

/-- C5: on a document with no pattern match `process_html_file` returns
False, attempts no download, writes no image and does not touch the file. -/
theorem claim5_no_match_no_write (get : List Char → HttpResult) (content : List Char)
    (h : findall content = []) :
    process_html_file get content = ⟨[], [], none, false⟩ :=
  process_eq_nil get content h

theorem claim5_witness :
    findall noMatchDoc = [] ∧
    process_html_file okPngGet noMatchDoc = ⟨[], [], none, false⟩ :=
  ⟨by decide, claim5_no_match_no_write okPngGet noMatchDoc (by decide)⟩

/-- C6: on a document with exactly one match whose download fails on all
three extensions, `process_html_file` returns False and does not write the
file back. -/
theorem claim6_all_fail_unchanged (get : List Char → HttpResult)
    (content st p : List Char)
    (hm : findall content = [(st, p)])
    (hfail : ∀ e ∈ extsList, isOk (get (hostStr ++ strip p ++ e)) = false) :
    (process_html_file get content).ret = false ∧
    (process_html_file get content).fileWrite = none := by
  have hd : (download_image get p).ret = none :=
    tryExts_all_fail get (strip p) extsList hfail
  rw [process_single_none get content st p hm hd]
  exact ⟨rfl, rfl⟩

theorem claim6_witness :
    findall demoDoc = [(demoStyle, demoPath)] ∧
    (process_html_file notFoundGet demoDoc).ret = false ∧
    (process_html_file notFoundGet demoDoc).fileWrite = none := by
  refine ⟨by decide, ?_⟩
  exact claim6_all_fail_unchanged notFoundGet demoDoc demoStyle demoPath (by decide)
    (fun _ _ => rfl)

/-- C7: `download_image` is a total function of the per-URL success pattern:
oracles agreeing on which URLs give HTTP 200 yield the same returned value
and the same attempt list (transport errors and non-200 responses are
treated identically, as "continue"); when every extension fails it returns
`none` rather than an error. -/
theorem claim7_never_raises :
    (∀ get1 get2 : List Char → HttpResult, ∀ p : List Char,
      (∀ u, isOk (get1 u) = isOk (get2 u)) →
        (download_image get1 p).ret = (download_image get2 p).ret ∧
        (download_image get1 p).attempts = (download_image get2 p).attempts) ∧
    ∀ get : List Char → HttpResult, ∀ p : List Char,
      (∀ e ∈ extsList, isOk (get (hostStr ++ strip p ++ e)) = false) →
        (download_image get p).ret = none := by
  constructor
  · intro get1 get2 p hok
    exact tryExts_congr get1 get2 hok (strip p) extsList
  · intro get p hfail
    exact tryExts_all_fail get (strip p) extsList hfail

theorem claim7_witness :
    ((download_image okPngGet demoPath).ret = (download_image okPngGetErr demoPath).ret ∧
     (download_image okPngGet demoPath).attempts
       = (download_image okPngGetErr demoPath).attempts) ∧
    (download_image errGet demoPath).ret = none := by
  constructor
  · refine claim7_never_raises.1 okPngGet okPngGetErr demoPath ?_
    intro u
    rw [okPngGet, okPngGetErr]
    by_cases hu : u = "https://tgv4plus.com/uploads/i.png".toList
    · rw [if_pos hu, if_pos hu]
      rfl
    · rw [if_neg hu, if_neg hu]
      rfl
  · exact claim7_never_raises.2 errGet demoPath (fun _ _ => rfl)

/-- C8: the two-character root marker `_/` is stripped from the logical path
when present (otherwise the path is used as is), and on success the remote
URL, the saved local file path and the returned HTML reference are all built
from the same stripped path and extension (lockstep). -/
theorem claim8_strip_lockstep :
    (∀ p : List Char,
      (rootMarker.isPrefixOf p = true → strip p = p.drop 2) ∧
      (rootMarker.isPrefixOf p = false → strip p = p)) ∧
    ∀ get : List Char → HttpResult, ∀ p ref : List Char,
      (download_image get p).ret = some ref →
        ∃ e body, e ∈ extsList ∧
          get (hostStr ++ strip p ++ e) = .response 200 body ∧
          ref = dotSlash ++ strip p ++ e ∧
          (download_image get p).writes = [(localRoot ++ strip p ++ e, body)] := by
  constructor
  · intro p
    constructor
    · intro h
      simp [strip, h]
    · intro h
      simp [strip, h]
  · intro get p ref h
    exact tryExts_ret_some get (strip p) extsList ref h

theorem claim8_witness :
    (rootMarker.isPrefixOf demoPath = true → strip demoPath = demoPath.drop 2) ∧
    ∃ e body, e ∈ extsList ∧
      okPngGet (hostStr ++ strip demoPath ++ e) = .response 200 body ∧
      ("./uploads/i.png".toList : List Char) = dotSlash ++ strip demoPath ++ e ∧
      (download_image okPngGet demoPath).writes
        = [(localRoot ++ strip demoPath ++ e, body)] :=
  ⟨(claim8_strip_lockstep.1 demoPath).1,
   claim8_strip_lockstep.2 okPngGet demoPath ("./uploads/i.png".toList) (by decide)⟩

/-- C9: a second run on the already-migrated content (whose URLs no longer
match the pattern) performs zero downloads, zero image writes and no file
write, and returns False. -/
theorem claim9_idempotent (get1 get2 : List Char → HttpResult) (content c' : List Char)
    (_h1 : (process_html_file get1 content).fileWrite = some c')
    (h2 : findall c' = []) :
    process_html_file get2 c' = ⟨[], [], none, false⟩ :=
  process_eq_nil get2 c' h2

theorem claim9_witness :
    (process_html_file okPngGet demoDoc).fileWrite = some migratedDemo ∧
    findall migratedDemo = [] ∧
    process_html_file okPngGet migratedDemo = ⟨[], [], none, false⟩ :=
  ⟨by decide, by decide,
   claim9_idempotent okPngGet okPngGet demoDoc migratedDemo (by decide) (by decide)⟩

/-- C10: the pattern only matches with the class attribute before the style
attribute inside the same tag: a match decomposes the scanned text as
`class="<v>"` (with the marker class inside `v`, which contains no `"`),
then a gap containing no `>`, then `style="<group 1>"`. -/
theorem claim10_class_before_style (s g1 g2 rest : List Char)
    (h : matchAt s = some (g1, g2, rest)) :
    ∃ v m, s = classLit ++ v ++ '"' :: (m ++ styleAttr ++ g1 ++ '"' :: rest) ∧
      containsSub markerLit v = true ∧ (∀ c ∈ v, ¬ c = '"') ∧ ∀ c ∈ m, ¬ c = '>' := by
  obtain ⟨v, m, hs, hmk, hv, hm, _⟩ := matchAt_spec s g1 g2 rest h
  exact ⟨v, m, hs, hmk, hv, hm⟩

theorem claim10_witness :
    ∃ v m, demoTag = classLit ++ v ++ '"' :: (m ++ styleAttr ++ demoStyle ++ '"' :: ">x".toList) ∧
      containsSub markerLit v = true ∧ (∀ c ∈ v, ¬ c = '"') ∧ ∀ c ∈ m, ¬ c = '>' :=
  claim10_class_before_style demoTag demoStyle demoPath (">x".toList) (by decide)

/-- C2 counterexample: in `docDup` the same captured style value appears
verbatim twice and is captured twice; the code records two replacements for
the one distinct old-value key and substitutes BOTH occurrences (one per
recorded replacement), so the later verbatim duplicate is modified, contrary
to the claim that only the first occurrence is substituted per distinct
old-value key. -/
theorem claim2_counterexample :
    findall docDup = [(demoStyle, demoPath), (demoStyle, demoPath)] ∧
    countSub (styleTok demoStyle) docDup = 2 ∧
    (process_html_file okPngGet docDup).fileWrite.map
      (fun c => countSub (styleTok demoStyle) c) = some 0 :=
  ⟨by decide, by decide, by decide⟩

/-- C2 amended: each recorded replacement substitutes the first occurrence of
`style="<old>"` present when it is applied; in particular when the value is
captured exactly once but occurs verbatim twice, only the first occurrence is
substituted and the later duplicate is left byte-identical. -/
theorem claim2_amended_first_occurrence (get : List Char → HttpResult)
    (content st p np a m b : List Char)
    (hm : findall content = [(st, p)])
    (hd : (download_image get p).ret = some np)
    (hdecomp : content = a ++ styleTok st ++ (m ++ styleTok st ++ b))
    (hfirst : ∀ i, i < a.length → (styleTok st).isPrefixOf (content.drop i) = false) :
    (process_html_file get content).fileWrite =
      some (a ++ styleTok (replaceAll ("url(".toList ++ p ++ ".html)".toList)
        ("url(".toList ++ np ++ ")".toList) st) ++ (m ++ styleTok st ++ b)) := by
  rw [hdecomp] at hfirst
  have hx := replaceOnce_leftmost (styleTok st)
    (styleTok (replaceAll ("url(".toList ++ p ++ ".html)".toList)
      ("url(".toList ++ np ++ ")".toList) st))
    (styleTok_ne_nil st) a (m ++ styleTok st ++ b) hfirst
  rw [process_single_ok get content st p np hm hd, hdecomp, hx]

theorem claim2_witness :
    (process_html_file okPngGet docDupOne).fileWrite =
      some (docDupOneA ++ styleTok (replaceAll ("url(".toList ++ demoPath ++ ".html)".toList)
        ("url(".toList ++ "./uploads/i.png".toList ++ ")".toList) demoStyle)
        ++ (docDupOneM ++ styleTok demoStyle ++ docDupOneB)) :=
  claim2_amended_first_occurrence okPngGet docDupOne demoStyle demoPath
    ("./uploads/i.png".toList) docDupOneA docDupOneM docDupOneB
    (by decide) (by decide) (by decide) (by decide)

/-- C4 counterexample: the captured path always starts with the `_/` marker,
which `download_image` strips, so the written file contains
`url(./uploads/i.png)` and NOT `url(./_/uploads/i.png)`; with a single
metavariable `<path>` (the captured path `_/uploads/i`), the written file
does not contain `url(./<path>.png)`. -/
theorem claim4_counterexample :
    findall demoDoc = [(demoStyle, demoPath)] ∧
    (download_image okPngGet demoPath).ret = some ("./uploads/i.png".toList) ∧
    (process_html_file okPngGet demoDoc).fileWrite.map
      (fun c => containsSub ("url(./_/uploads/i.png)".toList) c) = some false ∧
    (process_html_file okPngGet demoDoc).fileWrite.map
      (fun c => containsSub ("url(./uploads/i.png)".toList) c) = some true :=
  ⟨by decide, by decide, by decide, by decide⟩

/-- C4 amended: for a single match whose `.png` download succeeds, the file
is rewritten; the document decomposes as `a ++ style="<st>" ++ b` and the
written content replaces exactly that token by `style="<st'>"` where `st'`
substitutes `url(<path>.html)` by `url(./<stripped path>.png)` inside the
captured style value (the stripped path drops the leading `_/`); the written
content contains the literal `url(./<stripped path>.png)` and every byte
outside the replaced token is unchanged. -/
theorem claim4_amended_png_rewrite (get : List Char → HttpResult)
    (content st p body : List Char)
    (hm : findall content = [(st, p)])
    (hok : get (hostStr ++ strip p ++ ".png".toList) = .response 200 body) :
    (process_html_file get content).ret = true ∧
    ∃ a b, content = a ++ styleTok st ++ b ∧
      (process_html_file get content).fileWrite =
        some (a ++ styleTok (replaceAll ("url(".toList ++ p ++ ".html)".toList)
          ("url(".toList ++ (dotSlash ++ strip p ++ ".png".toList) ++ ")".toList) st) ++ b) ∧
      containsSub ("url(".toList ++ (dotSlash ++ strip p ++ ".png".toList) ++ ")".toList)
        (a ++ styleTok (replaceAll ("url(".toList ++ p ++ ".html)".toList)
          ("url(".toList ++ (dotSlash ++ strip p ++ ".png".toList) ++ ")".toList) st) ++ b)
        = true := by
  have hd : (download_image get p).ret
      = some (dotSlash ++ strip p ++ ".png".toList) := by
    have e0 := tryExts_cons_ok get (strip p) (".png".toList)
        [".jpg".toList, ".jpeg".toList] body hok
    have hdl : download_image get p
        = tryExts get (strip p) (".png".toList :: [".jpg".toList, ".jpeg".toList]) := rfl
    rw [hdl, e0]
  have hproc := process_single_ok get content st p
      (dotSlash ++ strip p ++ ".png".toList) hm hd
  have hmem : (st, p) ∈ findall content := by
    rw [hm]
    exact List.mem_cons_self _ _
  obtain ⟨⟨a0, b0, hab⟩, x, y, hstx⟩ := findall_mem content st p hmem
  have hcont : containsSub (styleTok st) content = true := by
    rw [hab]
    exact containsSub_of_decomp (styleTok st) a0 b0
  obtain ⟨a, b, hd2, hr⟩ := replaceOnce_of_contains (styleTok st)
      (styleTok (replaceAll ("url(".toList ++ p ++ ".html)".toList)
        ("url(".toList ++ (dotSlash ++ strip p ++ ".png".toList) ++ ")".toList) st))
      (styleTok_ne_nil st) content hcont
  refine ⟨by rw [hproc], a, b, hd2, by rw [hproc, hr], ?_⟩
  have hold : ("url(".toList ++ p ++ ".html)".toList : List Char)
      = "url(".toList ++ p ++ htmlExtLit ++ [')'] := by
    have h1 : (".html)".toList : List Char) = htmlExtLit ++ [')'] := by decide
    rw [h1, ← List.append_assoc]
  have hcold : containsSub ("url(".toList ++ p ++ ".html)".toList) st = true := by
    rw [hold, hstx]
    exact containsSub_of_decomp _ x y
  have hne : ("url(".toList ++ p ++ ".html)".toList : List Char) ≠ [] := by
    intro hc
    have hl := congrArg List.length hc
    simp only [List.length_append, List.length_nil] at hl
    have h4 : ("url(".toList : List Char).length = 4 := by decide
    have h6 : ((".html)".toList : List Char)).length = 6 := by decide
    omega
  obtain ⟨u, w, hrw⟩ := replaceAll_contains ("url(".toList ++ p ++ ".html)".toList)
      ("url(".toList ++ (dotSlash ++ strip p ++ ".png".toList) ++ ")".toList) st hne hcold
  rw [hrw]
  have hsh : a ++ styleTok (u ++ ("url(".toList ++ (dotSlash ++ strip p ++ ".png".toList)
        ++ ")".toList) ++ w) ++ b
      = (a ++ styleAttr ++ u)
        ++ ("url(".toList ++ (dotSlash ++ strip p ++ ".png".toList) ++ ")".toList)
        ++ (w ++ "\"".toList ++ b) := by
    simp [styleTok, List.append_assoc]
  rw [hsh]
  exact containsSub_of_decomp _ _ _

theorem claim4_witness :
    (process_html_file okPngGet demoDoc).ret = true ∧
    ∃ a b, demoDoc = a ++ styleTok demoStyle ++ b ∧
      (process_html_file okPngGet demoDoc).fileWrite =
        some (a ++ styleTok (replaceAll ("url(".toList ++ demoPath ++ ".html)".toList)
          ("url(".toList ++ (dotSlash ++ strip demoPath ++ ".png".toList) ++ ")".toList)
          demoStyle) ++ b) ∧
      containsSub ("url(".toList ++ (dotSlash ++ strip demoPath ++ ".png".toList) ++ ")".toList)
        (a ++ styleTok (replaceAll ("url(".toList ++ demoPath ++ ".html)".toList)
          ("url(".toList ++ (dotSlash ++ strip demoPath ++ ".png".toList) ++ ")".toList)
          demoStyle) ++ b)
        = true :=
  claim4_amended_png_rewrite okPngGet demoDoc demoStyle demoPath ("IMG".toList)
    (by decide) (by decide)
